import Mathlib

/-!
Shallow embedding of the offset-pagination link calculator of
`resource.go` (package `jsonapi`), together with proofs about it.

Modelling conventions:
* a Go string (the URL) is a `List Char`;
* Go `int64` is `Int` (the exercised values stay far below `2^53`, where
  the source's round-trips through `float64` in `math.Min` / `math.Max`
  are exact, and `strconv.Atoi` cannot overflow);
* Go's truncating `/` and `%` are `Int.tdiv` and `Int.tmod`;
* the regular expressions of the source are literal-text matchers
  (`regexSafe` escapes every special character of the parameter names,
  so the patterns `page\[limit\]=[^&]+` and `page\[<name>\]=(\d+)` match
  exactly the literal key followed by the indicated character runs);
* `regexp.ReplaceAllString` / `FindStringSubmatch` semantics (leftmost
  match, greedy character runs, continue after the end of the replaced
  match) are implemented by direct recursion on the character list.
-/

namespace Jsonapi

/-- URLs and parameter texts are lists of characters. -/
abbrev Chars := List Char

/-- Character class `\d` of the extraction pattern. -/
def isDigitChar (c : Char) : Bool := '0' ≤ c && c ≤ '9'

/-- Numeric value of one digit character. -/
def digitVal (c : Char) : Nat := c.toNat - '0'.toNat

/-- Value of a run of digit characters, as `strconv.Atoi` computes it on
an all-digit string. -/
def digitsToNat (ds : Chars) : Nat := ds.foldl (fun acc c => acc * 10 + digitVal c) 0

/-- Decimal digit characters of a natural number; fuel-based so that it
is structurally recursive and the kernel can evaluate it (`fuel > n`
always holds for the wrapper below). -/
def natDigitsGo : Nat → Nat → Chars
  | 0, _ => []
  | fuel+1, n =>
      if n < 10 then [Nat.digitChar n]
      else natDigitsGo fuel (n / 10) ++ [Nat.digitChar (n % 10)]

/-- Decimal representation of a natural number. -/
def natDigits (n : Nat) : Chars := natDigitsGo (n + 1) n

/-- `strconv.FormatInt(n, 10)`. -/
def intToChars (n : Int) : Chars :=
  if n < 0 then '-' :: natDigits n.natAbs else natDigits n.toNat

/-- `strings.Contains s needle`: `needle` occurs contiguously in `s`. -/
def strContains (s needle : Chars) : Bool :=
  match s with
  | [] => needle.isEmpty
  | c :: t => needle.isPrefixOf (c :: t) || strContains t needle

/-- The literal text `page[<name>]=` matched by the pattern that
`getPageParam` builds with `fmt.Sprintf`. -/
def pageKey (name : Chars) : Chars := "page[".toList ++ name ++ "]=".toList

/-- Leftmost position where `key` is followed by at least one digit;
returns the maximal digit run there (the capture group of the pattern
`page\[name\]=(\d+)` under `FindStringSubmatch`). -/
def findParamDigits (key : Chars) : Chars → Option Chars
  | [] => none
  | c :: rest =>
      let ds := ((c :: rest).drop key.length).takeWhile isDigitChar
      if key.isPrefixOf (c :: rest) && !ds.isEmpty then some ds
      else findParamDigits key rest

/-- `getPageParam` of `resource.go` (lines 226-235): extract the first
digit run following `page[<name>]=` anywhere in the URL; absence (or a
non-digit value) yields 0. -/
def getPageParam (name url : Chars) : Int :=
  match findParamDigits (pageKey name) url with
  | some ds => (digitsToNat ds : Int)
  | none => 0

/-- Scanner of `regexp.ReplaceAllString` for the pattern
`<pat>[^&]+` where `pat` is the literal parameter name followed by `=`:
at the leftmost position where `pat` is followed by a nonempty run of
non-`'&'` characters, the whole match is replaced by `pat ++ value` and
scanning continues after the end of the match.  Fuel-based
(`fuel ≥ s.length` suffices) so the kernel can evaluate it. -/
def replaceGo (pat value : Chars) : Nat → Chars → Chars
  | _, [] => []
  | 0, s => s
  | fuel+1, c :: rest =>
      if pat.isPrefixOf (c :: rest)
          && !(((c :: rest).drop pat.length).takeWhile (fun a => a != '&')).isEmpty then
        pat ++ value ++ replaceGo pat value fuel
          ((c :: rest).drop
            (pat.length + (((c :: rest).drop pat.length).takeWhile (fun a => a != '&')).length))
      else
        c :: replaceGo pat value fuel rest

/-- `replaceParam` of `resource.go` (lines 237-249): replace every
occurrence of `param=<nonempty run of non-'&'>` by `param=value`. -/
def replaceParam (param value s : Chars) : Chars :=
  replaceGo (param ++ ['=']) value s.length s

/-- `OffsetPagination` of `resource.go` (lines 155-159). -/
structure OffsetPagination where
  URL : Chars
  Limit : Int
  Total : Int
deriving DecidableEq

/-- Produced link set.  Modelled from the spec: the key constants
`KeyFirstPage`, `KeyPreviousPage`, `KeyNextPage`, `KeyLastPage` are
defined outside this fragment; the spec fixes the key set
`{first, previous, next, last}`, so the Go `Links` map is embedded as
one optional entry per key. -/
structure LinksSet where
  first : Option Chars
  previous : Option Chars
  next : Option Chars
  last : Option Chars
deriving DecidableEq

/-- `appendToURL` of `resource.go` (lines 259-265). -/
def appendToURL (url param : Chars) : Chars :=
  if strContains url "?".toList then url ++ '&' :: param else url ++ '?' :: param

/-- First normalisation step (lines 169-171): append
`page[limit]=<limit>` when the literal substring `page[limit]` is
absent from the URL. -/
def normalizeLimit (url : Chars) (limit : Int) : Chars :=
  if !strContains url "page[limit]".toList then
    appendToURL url ("page[limit]=".toList ++ intToChars limit)
  else url

/-- Second normalisation step (lines 172-174): append `page[offset]=0`
when the literal substring `page[offset]` is absent. -/
def normalizeOffset (url : Chars) : Chars :=
  if !strContains url "page[offset]".toList then
    appendToURL url "page[offset]=0".toList
  else url

/-- Normalisation of the receiver's URL (lines 169-174): the limit
parameter is appended first, then the offset parameter, each only when
its literal substring is absent. -/
def workingURL (p : OffsetPagination) : Chars :=
  normalizeOffset (normalizeLimit p.URL p.Limit)

/-- Effective limit (lines 177-180).  The source extracts with the name
`Limit` — capital `L`, hence the pattern `page\[Limit\]=(\d+)` — while
the URLs normalised by the code itself carry lowercase `page[limit]`. -/
def effectiveLimit (p : OffsetPagination) : Int :=
  if min (getPageParam "Limit".toList (workingURL p)) p.Limit = 0 then p.Limit
  else min (getPageParam "Limit".toList (workingURL p)) p.Limit

/-- Effective offset (line 181). -/
def effectiveOffset (p : OffsetPagination) : Int :=
  max (getPageParam "offset".toList (workingURL p)) 0

/-- URL of one emitted link: `page[limit]` rewritten first, then
`page[offset]` rewritten to the link's target offset, exactly as each
branch of the source does on its fresh copy of the URL string. -/
def linkURL (url : Chars) (limit target : Int) : Chars :=
  replaceParam "page[offset]".toList (intToChars target)
    (replaceParam "page[limit]".toList (intToChars limit) url)

/-- Page count of the last-page branch (lines 209-212): truncating
division of `total` by the effective limit, plus one on a remainder. -/
def pagesCalc (total limit : Int) : Int :=
  if total.tmod limit > 0 then total.tdiv limit + 1 else total.tdiv limit

/-- Last-page offset computation (lines 209-218). -/
def lastOffsetCalc (total limit offset : Int) : Int :=
  if (pagesCalc total limit - 1) * limit + offset.tmod limit > total
  then (pagesCalc total limit - 1) * limit + offset.tmod limit - limit
  else (pagesCalc total limit - 1) * limit + offset.tmod limit

/-- The four conditional links (lines 183-221), as a function of the
working URL, effective limit, effective offset and total. -/
def linksFor (url : Chars) (limit offset total : Int) : LinksSet :=
  { first := if offset > 0 then some (linkURL url limit 0) else none
    previous := if offset > limit then some (linkURL url limit (offset - limit)) else none
    next := if offset + limit < total - limit then some (linkURL url limit (offset + limit)) else none
    last := if offset + limit < total then some (linkURL url limit (lastOffsetCalc total limit offset)) else none }

/-- `GeneratePagination` of `resource.go` (lines 161-224).  The first
component is the final value of the receiver's `URL` field (the method
mutates it through `appendToURL`); the second is the produced link set,
`none` being Go's `nil`. -/
def GeneratePagination (p : OffsetPagination) : Chars × Option LinksSet :=
  if p.Total < p.Limit then (p.URL, none)
  else
    (workingURL p, some (linksFor (workingURL p) (effectiveLimit p) (effectiveOffset p) p.Total))

/-- Number of links present in a link set. -/
def linkCount (L : LinksSet) : Nat :=
  (if L.first.isSome then 1 else 0) + (if L.previous.isSome then 1 else 0) +
    (if L.next.isSome then 1 else 0) + (if L.last.isSome then 1 else 0)

/-- The divisions `p.Total / limit`, `p.Total % limit` and
`offset % limit` of the last-page branch run exactly when
`offset+limit < p.Total` holds after the short-circuit; this predicate
says that branch executes with divisor 0 (where Go panics, while
`Int.tdiv`/`Int.tmod` in this embedding return 0). -/
def divisorZeroReached (p : OffsetPagination) : Prop :=
  p.Limit ≤ p.Total ∧ effectiveLimit p = 0 ∧
    effectiveOffset p + effectiveLimit p < p.Total

instance : DecidablePred divisorZeroReached := fun p => by
  unfold divisorZeroReached; infer_instance

/-- Last-page offset as the spec words it: `pages = ceil(total /
effectiveLimit)`; `lastOffset = (pages - 1) * effectiveLimit` plus the
alignment shift `effectiveOffset mod effectiveLimit`; if the result
exceeds `total`, subtract `effectiveLimit` once.  Ceiling division and
`mod` are stated with mathematical (Euclidean) `/` and `%`, which agree
with the intended meaning for `limit ≥ 1`, `total ≥ 0`, `offset ≥ 0`. -/
def lastOffsetSpec (total limit offset : Int) : Int :=
  if ((total + limit - 1) / limit - 1) * limit + offset % limit > total
  then ((total + limit - 1) / limit - 1) * limit + offset % limit - limit
  else ((total + limit - 1) / limit - 1) * limit + offset % limit

/-- The literal key `page[limit]` (as checked by `strings.Contains` and
passed to `replaceParam`). -/
def limitKey : Chars := "page[limit]".toList

/-- The literal key `page[offset]`. -/
def offsetKey : Chars := "page[offset]".toList

/-- Rendering of a query-parameter list as `k1=v1&k2=v2&...`. -/
def renderParams : List (Chars × Chars) → Chars
  | [] => []
  | [kv] => kv.1 ++ '=' :: kv.2
  | kv :: rest => kv.1 ++ '=' :: kv.2 ++ '&' :: renderParams rest

/-- Rendering of a URL consisting of a base path and a query string. -/
def renderURL (base : Chars) (ps : List (Chars × Chars)) : Chars :=
  base ++ '?' :: renderParams ps

/-- The substitution one `replaceParam` pass performs on a parameter
list: every parameter whose key equals `key` gets the new value. -/
def substValue (key newv : Chars) (ps : List (Chars × Chars)) : List (Chars × Chars) :=
  ps.map fun kv => if kv.1 = key then (kv.1, newv) else kv

/-- Well-formedness of one rendered query parameter, the hypotheses
under which the value-only rewrite behaves structurally: the value is
nonempty and free of `'&'`, and for each page key the segment either is
that parameter or does not contain the text `<key>=` at all. -/
def SegOK (kv : Chars × Chars) : Prop :=
  kv.2 ≠ [] ∧ '&' ∉ kv.2 ∧
    (kv.1 = limitKey ∨ ¬ (limitKey ++ ['=']) <:+: (kv.1 ++ '=' :: kv.2)) ∧
    (kv.1 = offsetKey ∨ ¬ (offsetKey ++ ['=']) <:+: (kv.1 ++ '=' :: kv.2))

/-- Absence of the capitalised extraction key `page[Limit]=` from a
rendered segment (the pattern `getPageParam` is called with for the
limit; needed to pin the extracted limit of a rendered URL to 0). -/
def SegNoCap (kv : Chars × Chars) : Prop :=
  ¬ pageKey "Limit".toList <:+: (kv.1 ++ '=' :: kv.2)

instance : DecidablePred SegOK := fun kv => by
  unfold SegOK
  infer_instance

instance : DecidablePred SegNoCap := fun kv => by
  unfold SegNoCap
  infer_instance

/-- The combined substitution a link rewrite performs on a rendered
parameter list: the `page[limit]` value becomes the effective limit,
the `page[offset]` value becomes the link's target offset, and every
other parameter stays verbatim in place. -/
def substPage (l tgt : Int) (ps : List (Chars × Chars)) : List (Chars × Chars) :=
  ps.map fun kv =>
    if kv.1 = limitKey then (kv.1, intToChars l)
    else if kv.1 = offsetKey then (kv.1, intToChars tgt)
    else kv

-- ====================== theorems ======================

/-- Sanity: the "Mid range offset" table entry of
`TestOffsetPagination_GeneratePagination` is reproduced exactly. -/
theorem sanity_midRange :
    (GeneratePagination ⟨"/?page[limit]=111&page[offset]=111".toList, 100, 334⟩).2 =
      some ⟨some "/?page[limit]=100&page[offset]=0".toList,
            some "/?page[limit]=100&page[offset]=11".toList,
            some "/?page[limit]=100&page[offset]=211".toList,
            some "/?page[limit]=100&page[offset]=311".toList⟩ := by decide

/-- Sanity: the "No params set" table entry (URL `/`, no query string)
is reproduced exactly, including the appended parameters. -/
theorem sanity_noParams :
    (GeneratePagination ⟨"/".toList, 100, 334⟩).2 =
      some ⟨none, none,
            some "/?page[limit]=100&page[offset]=100".toList,
            some "/?page[limit]=100&page[offset]=300".toList⟩ := by decide

/-- The effective offset is clamped to be nonnegative. -/
theorem effectiveOffset_nonneg (p : OffsetPagination) : 0 ≤ effectiveOffset p :=
  le_max_right _ _

/-- A zero effective limit can only come from a zero configured limit:
the `min` with the (nonnegative-or-configured) extracted value falls
back to the configured limit whenever it is zero. -/
theorem effectiveLimit_eq_zero (p : OffsetPagination) (h : effectiveLimit p = 0) :
    p.Limit = 0 := by
  unfold effectiveLimit at h
  split at h
  · exact h
  · exact absurd h (by assumption)

/-- A positive effective limit forces a positive configured limit. -/
theorem one_le_Limit_of_effectiveLimit (p : OffsetPagination)
    (h : 1 ≤ effectiveLimit p) : 1 ≤ p.Limit := by
  unfold effectiveLimit at h
  split at h
  · exact h
  · exact le_trans h (min_le_right _ _)

/-- On the branch that passes the short-circuit, `GeneratePagination`
produces exactly `linksFor` of the working URL and effective values. -/
theorem generate_eq_linksFor (p : OffsetPagination) (L : LinksSet)
    (h : (GeneratePagination p).2 = some L) :
    ¬ p.Total < p.Limit ∧
      L = linksFor (workingURL p) (effectiveLimit p) (effectiveOffset p) p.Total := by
  unfold GeneratePagination at h
  split at h
  · exact absurd h (by simp)
  · exact ⟨by assumption, (Option.some.inj h).symm⟩

/-- Truncating and ceiling division agree as expected: the page count
of the source (`total/limit`, plus one when `total%limit > 0`) equals
the ceiling `(total + limit - 1) / limit` for `limit ≥ 1`, `total ≥ 0`. -/
theorem pages_eq_ceil (T l : Int) (hl : 1 ≤ l) (hT : 0 ≤ T) :
    pagesCalc T l = (T + l - 1) / l := by
  have hl0 : (0 : Int) < l := hl
  have hlz : l ≠ 0 := ne_of_gt hl0
  unfold pagesCalc
  rw [Int.tdiv_eq_ediv hT (le_of_lt hl0), Int.tmod_eq_emod hT (le_of_lt hl0)]
  have hq : l * (T / l) + T % l = T := Int.ediv_add_emod T l
  have hr0 : 0 ≤ T % l := Int.emod_nonneg T hlz
  have hrl : T % l < l := Int.emod_lt_of_pos T hl0
  have hrw : T + l - 1 = (T % l + l - 1) + (T / l) * l := by linarith
  rw [hrw, Int.add_mul_ediv_right _ _ hlz]
  by_cases hr : T % l > 0
  · have h1 : T % l + l - 1 = (T % l - 1) + 1 * l := by ring
    have hz : (T % l - 1) / l = 0 := Int.ediv_eq_zero_of_lt (by omega) (by omega)
    rw [if_pos hr, h1, Int.add_mul_ediv_right _ _ hlz, hz]
    ring
  · have hz : (T % l + l - 1) / l = 0 := Int.ediv_eq_zero_of_lt (by omega) (by omega)
    rw [if_neg hr, hz]
    ring

/-- The last-page offset of the source equals the offset the spec
describes, whenever the divisor is positive and the inputs are the
nonnegative values the calculator produces. -/
theorem lastOffsetCalc_eq_spec (T l o : Int) (hl : 1 ≤ l) (ho : 0 ≤ o) (hT : 0 ≤ T) :
    lastOffsetCalc T l o = lastOffsetSpec T l o := by
  unfold lastOffsetCalc lastOffsetSpec
  rw [Int.tmod_eq_emod ho (by omega), pages_eq_ceil T l hl hT]

/-- The emitted last-page offset never overshoots the total: the
"subtract one limit on overshoot" branch guarantees it. -/
theorem lastOffsetCalc_le_total (T l o : Int) (hl : 1 ≤ l) (ho : 0 ≤ o) (hT : 1 ≤ T) :
    lastOffsetCalc T l o ≤ T := by
  have hl0 : (0 : Int) < l := hl
  have hlz : l ≠ 0 := ne_of_gt hl0
  unfold lastOffsetCalc pagesCalc
  rw [Int.tdiv_eq_ediv (by omega) (by omega), Int.tmod_eq_emod (by omega) (by omega),
    Int.tmod_eq_emod ho (by omega)]
  have hq : l * (T / l) + T % l = T := Int.ediv_add_emod T l
  have hr0 : 0 ≤ T % l := Int.emod_nonneg T hlz
  have hrl : T % l < l := Int.emod_lt_of_pos T hl0
  have hs0 : 0 ≤ o % l := Int.emod_nonneg o hlz
  have hsl : o % l < l := Int.emod_lt_of_pos o hl0
  by_cases hr : T % l > 0
  · rw [if_pos hr]
    split
    · nlinarith
    · nlinarith
  · have hrz : T % l = 0 := le_antisymm (not_lt.mp hr) hr0
    rw [if_neg hr]
    split
    · nlinarith
    · nlinarith

/-- Count and emptiness of a produced link set, abstractly over the
working URL and effective values: at most 4 links, and zero links
exactly when the offset is 0 and the total does not exceed the
(nonnegative) limit. -/
theorem linkCount_linksFor (u : Chars) (l o T : Int) (ho : 0 ≤ o) :
    linkCount (linksFor u l o T) ≤ 4 ∧
      (linkCount (linksFor u l o T) = 0 ↔ o = 0 ∧ 0 ≤ l ∧ T ≤ l) := by
  unfold linkCount linksFor
  dsimp only
  by_cases h1 : o > 0 <;> by_cases h2 : o > l <;>
    by_cases h3 : o + l < T - l <;> by_cases h4 : o + l < T <;>
      simp [h1, h2, h3, h4] <;> omega

/-- C1: the spec says the page limit written into the links is
`min(extractedLimit, configuredLimit)` with `extractedLimit` read from
`page[limit]=<digits>`, so that url `/?page[limit]=50&page[offset]=100`
with configured limit 100 and total 334 should emit links carrying
`page[limit]=50`.  The source instead extracts with the name `Limit` —
pattern `page\[Limit\]=(\d+)`, capital `L` — which never matches the
lowercase parameter the code itself normalises into the URL; extraction
therefore yields 0, the `min` is 0, the fallback picks the configured
limit, and every emitted link carries `page[limit]=100`, not 50. -/
theorem C1_capital_L_extraction :
    getPageParam "limit".toList "/?page[limit]=50&page[offset]=100".toList = 50 ∧
    getPageParam "Limit".toList "/?page[limit]=50&page[offset]=100".toList = 0 ∧
    (GeneratePagination ⟨"/?page[limit]=50&page[offset]=100".toList, 100, 334⟩).2 =
      some ⟨some "/?page[limit]=100&page[offset]=0".toList, none,
            some "/?page[limit]=100&page[offset]=200".toList,
            some "/?page[limit]=100&page[offset]=300".toList⟩ := by decide

/-- C2 counterexample: with url `/` (missing pagination parameters),
limit 100, total 334, the receiver's URL field after the call differs
from its value before the call — `appendToURL` has a pointer receiver
and rewrites it in place during normalisation. -/
theorem C2_counterexample :
    (GeneratePagination ⟨"/".toList, 100, 334⟩).1 ≠ "/".toList := by decide

/-- C2 amended: the URL field is left unchanged whenever the input URL
already contains both literal substrings `page[limit]` and
`page[offset]` (each emitted link is always derived from its own copy;
only the missing-parameter normalisation writes through the receiver). -/
theorem C2_no_mutation_when_params_present (p : OffsetPagination)
    (hl : strContains p.URL "page[limit]".toList = true)
    (ho : strContains p.URL "page[offset]".toList = true) :
    (GeneratePagination p).1 = p.URL := by
  have h1 : normalizeLimit p.URL p.Limit = p.URL := by
    unfold normalizeLimit
    rw [hl]
    rfl
  have hw : workingURL p = p.URL := by
    unfold workingURL
    rw [h1]
    unfold normalizeOffset
    rw [ho]
    rfl
  unfold GeneratePagination
  split
  · rfl
  · simpa using hw

/-- C2 witness: a URL carrying both parameters is not mutated. -/
theorem C2_witness :
    (GeneratePagination ⟨"/?page[limit]=111&page[offset]=0".toList, 100, 334⟩).1 =
      "/?page[limit]=111&page[offset]=0".toList :=
  C2_no_mutation_when_params_present _ (by decide) (by decide)

/-- C3 counterexample: at the boundary `total = limit` with offset 0
(url `/`, limit 100, total 100) the source returns a PRESENT but EMPTY
link set — neither the no-pagination signal nor a set of 1 to 4 links. -/
theorem C3_counterexample :
    (GeneratePagination ⟨"/".toList, 100, 100⟩).2 = some ⟨none, none, none, none⟩ ∧
      linkCount ⟨none, none, none, none⟩ = 0 := by decide

/-- C3 amended: the call returns `none` exactly when `total < limit`;
otherwise it returns a link set of 0 to 4 entries over the fixed key
set, and the set is empty precisely when the effective offset is 0 and
the total does not exceed the (nonnegative) effective limit — e.g. at
`total = limit` with offset 0. -/
theorem C3_linkset_shape (p : OffsetPagination) :
    ((GeneratePagination p).2 = none ↔ p.Total < p.Limit) ∧
    ∀ L, (GeneratePagination p).2 = some L →
      linkCount L ≤ 4 ∧
        (linkCount L = 0 ↔
          effectiveOffset p = 0 ∧ 0 ≤ effectiveLimit p ∧ p.Total ≤ effectiveLimit p) := by
  constructor
  · constructor
    · intro h
      unfold GeneratePagination at h
      split at h
      · assumption
      · simp at h
    · intro h
      unfold GeneratePagination
      rw [if_pos h]
  · intro L hL
    obtain ⟨-, rfl⟩ := generate_eq_linksFor p L hL
    exact linkCount_linksFor _ _ _ _ (effectiveOffset_nonneg p)

/-- C3 witness: the shape facts instantiated on the `/`, 100, 334 run. -/
theorem C3_witness :
    linkCount ⟨none, none, some "/?page[limit]=100&page[offset]=100".toList,
        some "/?page[limit]=100&page[offset]=300".toList⟩ ≤ 4 ∧
      (linkCount ⟨none, none, some "/?page[limit]=100&page[offset]=100".toList,
          some "/?page[limit]=100&page[offset]=300".toList⟩ = 0 ↔
        effectiveOffset ⟨"/".toList, 100, 334⟩ = 0 ∧
          0 ≤ effectiveLimit ⟨"/".toList, 100, 334⟩ ∧
          (334 : Int) ≤ effectiveLimit ⟨"/".toList, 100, 334⟩) :=
  (C3_linkset_shape ⟨"/".toList, 100, 334⟩).2 _ (by decide)

/-- C7: whenever `total < limit` the call short-circuits and returns
the no-pagination signal (`nil`), regardless of the URL contents. -/
theorem C7_none_below_threshold (p : OffsetPagination) (h : p.Total < p.Limit) :
    (GeneratePagination p).2 = none := by
  unfold GeneratePagination
  rw [if_pos h]

/-- C7 witness. -/
theorem C7_witness : (GeneratePagination ⟨"/a?b=c".toList, 100, 50⟩).2 = none :=
  C7_none_below_threshold _ (by decide)

/-- C9: under the precondition `limit ≥ 1` whenever `total > 0`, the
last-page branch (the only divisions and moduli of the calculator)
never runs with divisor 0; conversely, a zero divisor is reached only
when the configured limit is 0 and the total is positive. -/
theorem C9_no_div_by_zero (p : OffsetPagination) :
    ((0 < p.Total → 1 ≤ p.Limit) → ¬ divisorZeroReached p) ∧
    (divisorZeroReached p → p.Limit = 0 ∧ 0 < p.Total) := by
  have ho := effectiveOffset_nonneg p
  have key : divisorZeroReached p → p.Limit = 0 ∧ 0 < p.Total := by
    rintro ⟨hTL, hz, hlt⟩
    exact ⟨effectiveLimit_eq_zero p hz, by omega⟩
  refine ⟨?_, key⟩
  intro hpre hreach
  obtain ⟨hL0, hT0⟩ := key hreach
  have := hpre hT0
  omega

/-- C9 witness: a well-formed request reaches no zero divisor. -/
theorem C9_witness : ¬ divisorZeroReached ⟨"/".toList, 100, 334⟩ :=
  (C9_no_div_by_zero _).1 (by decide)

/-- C4: after the short-circuit, the `next` link is present iff
`effectiveOffset + effectiveLimit < total - effectiveLimit`, and then
its URL is the working URL with `page[limit]` rewritten to the
effective limit and `page[offset]` rewritten to
`effectiveOffset + effectiveLimit`. -/
theorem C4_next_link (p : OffsetPagination) (L : LinksSet)
    (h : (GeneratePagination p).2 = some L) :
    L.next = if effectiveOffset p + effectiveLimit p < p.Total - effectiveLimit p
      then some (replaceParam "page[offset]".toList
          (intToChars (effectiveOffset p + effectiveLimit p))
          (replaceParam "page[limit]".toList (intToChars (effectiveLimit p)) (workingURL p)))
      else none := by
  obtain ⟨-, rfl⟩ := generate_eq_linksFor p L h
  rfl

/-- C4 witness: the `0 offset` test row (url with `page[offset]=0`,
limit 100, total 334) emits `next` at offset 100. -/
theorem C4_witness :
    (⟨none, none, some "/?page[limit]=100&page[offset]=100".toList,
        some "/?page[limit]=100&page[offset]=300".toList⟩ : LinksSet).next =
      if effectiveOffset ⟨"/?page[limit]=111&page[offset]=0".toList, 100, 334⟩ +
            effectiveLimit ⟨"/?page[limit]=111&page[offset]=0".toList, 100, 334⟩ <
          (334 : Int) - effectiveLimit ⟨"/?page[limit]=111&page[offset]=0".toList, 100, 334⟩
      then some (replaceParam "page[offset]".toList
          (intToChars (effectiveOffset ⟨"/?page[limit]=111&page[offset]=0".toList, 100, 334⟩ +
            effectiveLimit ⟨"/?page[limit]=111&page[offset]=0".toList, 100, 334⟩))
          (replaceParam "page[limit]".toList
            (intToChars (effectiveLimit ⟨"/?page[limit]=111&page[offset]=0".toList, 100, 334⟩))
            (workingURL ⟨"/?page[limit]=111&page[offset]=0".toList, 100, 334⟩)))
      else none :=
  C4_next_link ⟨"/?page[limit]=111&page[offset]=0".toList, 100, 334⟩ _ (by decide)

/-- C5: after the short-circuit, with a positive effective limit, the
`last` link is present iff `effectiveOffset + effectiveLimit < total`,
its target offset is `(ceil(total/effectiveLimit) - 1) * effectiveLimit`
plus the alignment shift `effectiveOffset mod effectiveLimit`, reduced
by one `effectiveLimit` if that sum exceeds `total` — and the emitted
offset never overshoots past `total`. -/
theorem C5_last_link (p : OffsetPagination) (L : LinksSet)
    (h : (GeneratePagination p).2 = some L) (hl : 1 ≤ effectiveLimit p) :
    (L.last = if effectiveOffset p + effectiveLimit p < p.Total
      then some (linkURL (workingURL p) (effectiveLimit p)
        (lastOffsetSpec p.Total (effectiveLimit p) (effectiveOffset p)))
      else none) ∧
    lastOffsetSpec p.Total (effectiveLimit p) (effectiveOffset p) ≤ p.Total := by
  obtain ⟨hnl, rfl⟩ := generate_eq_linksFor p L h
  have hL1 : 1 ≤ p.Limit := one_le_Limit_of_effectiveLimit p hl
  have hT1 : 1 ≤ p.Total := le_trans hL1 (not_lt.mp hnl)
  have ho := effectiveOffset_nonneg p
  have hspec := lastOffsetCalc_eq_spec p.Total (effectiveLimit p) (effectiveOffset p)
    hl ho (by omega)
  constructor
  · have hdef : (linksFor (workingURL p) (effectiveLimit p) (effectiveOffset p) p.Total).last
        = if effectiveOffset p + effectiveLimit p < p.Total
          then some (linkURL (workingURL p) (effectiveLimit p)
            (lastOffsetCalc p.Total (effectiveLimit p) (effectiveOffset p)))
          else none := rfl
    rw [hdef, hspec]
  · rw [← hspec]
    exact lastOffsetCalc_le_total _ _ _ hl ho hT1

/-- C5 witness: the exact-multiple boundary of the claim and the test
suite — total 300, limit 100, offset 0 — emits `last` at offset 200. -/
theorem C5_witness :
    ((⟨none, none, some "/?page[limit]=100&page[offset]=100".toList,
        some "/?page[limit]=100&page[offset]=200".toList⟩ : LinksSet).last =
      if effectiveOffset ⟨"/?page[limit]=111&page[offset]=0".toList, 100, 300⟩ +
            effectiveLimit ⟨"/?page[limit]=111&page[offset]=0".toList, 100, 300⟩ < (300 : Int)
      then some (linkURL (workingURL ⟨"/?page[limit]=111&page[offset]=0".toList, 100, 300⟩)
        (effectiveLimit ⟨"/?page[limit]=111&page[offset]=0".toList, 100, 300⟩)
        (lastOffsetSpec 300 (effectiveLimit ⟨"/?page[limit]=111&page[offset]=0".toList, 100, 300⟩)
          (effectiveOffset ⟨"/?page[limit]=111&page[offset]=0".toList, 100, 300⟩)))
      else none) ∧
    lastOffsetSpec 300 (effectiveLimit ⟨"/?page[limit]=111&page[offset]=0".toList, 100, 300⟩)
        (effectiveOffset ⟨"/?page[limit]=111&page[offset]=0".toList, 100, 300⟩) ≤ (300 : Int) :=
  C5_last_link ⟨"/?page[limit]=111&page[offset]=0".toList, 100, 300⟩ _ (by decide) (by decide)

-- ============== substring and digit infrastructure ==============

/-- The boolean scan of `strings.Contains` agrees with list infixes. -/
theorem strContains_infix_iff (s n : Chars) : strContains s n = true ↔ n <:+: s := by
  induction s with
  | nil => simp [strContains, List.isEmpty_iff]
  | cons c t ih =>
      simp only [strContains, Bool.or_eq_true, List.isPrefixOf_iff_prefix, ih,
        List.infix_cons_iff]

/-- Case analysis on a prefix of an append. -/
theorem prefix_append_cases {n x y : Chars} (h : n <+: x ++ y) :
    n <+: x ∨ ∃ m, n = x ++ m ∧ m <+: y := by
  obtain ⟨t, ht⟩ := h
  rcases List.append_eq_append_iff.mp ht with ⟨a, ha, _⟩ | ⟨m, hm, hy⟩
  · exact Or.inl ⟨a, ha.symm⟩
  · exact Or.inr ⟨m, hm, ⟨t, hy.symm⟩⟩

/-- A pattern that avoids the character `q` and does not occur in `x`
does not occur in `x ++ [q]` either. -/
theorem not_infix_snoc {n x : Chars} {q : Char} (hn : ¬ n <:+: x) (hq : q ∉ n) :
    ¬ n <:+: x ++ [q] := by
  intro h
  have h' : n.reverse <:+: (x ++ [q]).reverse := List.reverse_infix.mpr h
  rw [List.reverse_append] at h'
  simp only [List.reverse_singleton, List.singleton_append] at h'
  rcases List.infix_cons_iff.mp h' with hp | hi
  · obtain ⟨t, ht⟩ := hp
    cases hrev : n.reverse with
    | nil =>
        have : n = [] := by simpa using congrArg List.reverse hrev
        exact hn (this ▸ List.nil_infix)
    | cons a r =>
        rw [hrev, List.cons_append] at ht
        injection ht with h1 _
        refine hq ?_
        have ha : a ∈ n.reverse := by rw [hrev]; exact List.mem_cons_self a r
        rw [h1] at ha
        exact List.mem_reverse.mp ha
  · exact hn ( List.reverse_infix.mp hi)

/-- Decomposition of an occurrence inside an append: it lies in the
left part, in the right part, or crosses the boundary with a nonempty
suffix-of-left and a nonempty prefix-of-right. -/
theorem infix_append_split {n a b : Chars} (h : n <:+: a ++ b) :
    n <:+: a ∨ n <:+: b ∨
      ∃ n₁ n₂, n = n₁ ++ n₂ ∧ n₁ ≠ [] ∧ n₂ ≠ [] ∧ n₁ <:+ a ∧ n₂ <+: b := by
  obtain ⟨s, t, hst⟩ := h
  have hst' : s ++ (n ++ t) = a ++ b := by simpa [List.append_assoc] using hst
  rcases List.append_eq_append_iff.mp hst' with ⟨a', ha, hnt⟩ | ⟨c', _, hb⟩
  · rcases List.append_eq_append_iff.mp hnt with ⟨w, hw, _⟩ | ⟨w, hn, hbw⟩
    · exact Or.inl ⟨s, w, by rw [ha, hw, List.append_assoc]⟩
    · by_cases ha0 : a' = []
      · subst ha0
        simp only [List.nil_append] at hn
        exact Or.inr (Or.inl ⟨[], t, by simp [hn, hbw]⟩)
      · by_cases hw0 : w = []
        · subst hw0
          rw [List.append_nil] at hn
          exact Or.inl ⟨s, [], by rw [List.append_nil, ha, hn]⟩
        · exact Or.inr (Or.inr ⟨a', w, hn, ha0, hw0, ⟨s, ha.symm⟩, ⟨t, hbw.symm⟩⟩)
  · exact Or.inr (Or.inl ⟨c', t, by rw [hb, List.append_assoc]⟩)

/-- An occurrence inside `w ++ ds` either lies entirely in `w` or uses
at least one character of `ds`. -/
theorem infix_append_chars {n w ds : Chars} (h : n <:+: w ++ ds) :
    n <:+: w ∨ ∃ c ∈ n, c ∈ ds := by
  rcases infix_append_split h with h1 | h2 | ⟨n1, n2, hn, _, h2, _, hp⟩
  · exact Or.inl h1
  · by_cases hn0 : n = []
    · exact Or.inl (hn0 ▸ List.nil_infix)
    · obtain ⟨c, hc⟩ := List.exists_mem_of_ne_nil n hn0
      exact Or.inr ⟨c, hc, h2.subset hc⟩
  · obtain ⟨c, hc⟩ := List.exists_mem_of_ne_nil n2 h2
    exact Or.inr ⟨c, by rw [hn]; exact List.mem_append_right _ hc, hp.subset hc⟩

/-- Containment in the left part survives appending on the right. -/
theorem strContains_append_of (a b n : Chars) (h : strContains a n = true) :
    strContains (a ++ b) n = true := by
  rw [strContains_infix_iff] at h ⊢
  obtain ⟨s, t, hst⟩ := h
  exact ⟨s, t ++ b, by rw [← hst]; simp [List.append_assoc]⟩

/-- Characters produced by `Nat.digitChar` below 10 are digits. -/
theorem isDigitChar_digitChar {k : Nat} (h : k < 10) :
    isDigitChar (Nat.digitChar k) = true := by
  interval_cases k <;> decide

/-- Every character a `natDigitsGo` run produces is a digit. -/
theorem natDigitsGo_digits (f n : Nat) : ∀ c ∈ natDigitsGo f n, isDigitChar c = true := by
  induction f generalizing n with
  | zero => intro c hc; simp [natDigitsGo] at hc
  | succ f ih =>
      intro c hc
      unfold natDigitsGo at hc
      split at hc
      · simp only [List.mem_singleton] at hc
        subst hc
        exact isDigitChar_digitChar (by assumption)
      · rcases List.mem_append.mp hc with h1 | h2
        · exact ih _ c h1
        · simp only [List.mem_singleton] at h2
          subst h2
          exact isDigitChar_digitChar (Nat.mod_lt _ (by norm_num))

/-- A formatted natural number is never the empty string. -/
theorem natDigits_ne_nil (n : Nat) : natDigits n ≠ [] := by
  unfold natDigits natDigitsGo
  split <;> simp

/-- Characters of a formatted integer: digits or the minus sign. -/
theorem intToChars_chars (n : Int) : ∀ c ∈ intToChars n, isDigitChar c = true ∨ c = '-' := by
  unfold intToChars
  split
  · intro c hc
    rcases List.mem_cons.mp hc with h | h
    · exact Or.inr h
    · exact Or.inl (natDigitsGo_digits _ _ c h)
  · intro c hc
    exact Or.inl (natDigitsGo_digits _ _ c hc)

/-- A formatted integer is never the empty string. -/
theorem intToChars_ne_nil (n : Int) : intToChars n ≠ [] := by
  unfold intToChars
  split
  · simp
  · exact natDigits_ne_nil _

/-- The separator `'&'` never appears in a formatted integer. -/
theorem amp_not_mem_intToChars (n : Int) : '&' ∉ intToChars n := by
  intro h
  rcases intToChars_chars n '&' h with h1 | h1
  · exact absurd h1 (by decide)
  · exact absurd h1 (by decide)

-- ================== replacement scanner lemmas ==================

/-- One definitional step of the replacement scanner on a nonempty
string with positive fuel. -/
theorem replaceGo_cons (pat value : Chars) (f : Nat) (c : Char) (t : Chars) :
    replaceGo pat value (f + 1) (c :: t) =
      if pat.isPrefixOf (c :: t)
          && !(((c :: t).drop pat.length).takeWhile (fun a => a != '&')).isEmpty then
        pat ++ value ++ replaceGo pat value f
          ((c :: t).drop
            (pat.length + (((c :: t).drop pat.length).takeWhile (fun a => a != '&')).length))
      else
        c :: replaceGo pat value f t := rfl

/-- Fuel irrelevance of the replacement scanner: any fuel of at least
the string length gives the same result. -/
theorem replaceGo_fuel (pat value : Chars) (f₁ f₂ : Nat) (s : Chars)
    (h₁ : s.length ≤ f₁) (h₂ : s.length ≤ f₂) :
    replaceGo pat value f₁ s = replaceGo pat value f₂ s := by
  induction f₁ generalizing f₂ s with
  | zero =>
      have hs : s = [] := List.length_eq_zero.mp (Nat.le_zero.mp h₁)
      subst hs
      cases f₂ <;> rfl
  | succ f ih =>
      cases s with
      | nil => cases f₂ <;> rfl
      | cons c rest =>
          obtain ⟨f₂', rfl⟩ : ∃ k, f₂ = k + 1 := by
            refine ⟨f₂ - 1, ?_⟩
            have := h₂
            simp only [List.length_cons] at this
            omega
          rw [replaceGo_cons, replaceGo_cons]
          simp only [List.length_cons] at h₁ h₂
          split
          · next hcond =>
              have hrun : (((c :: rest).drop pat.length).takeWhile (fun a => a != '&')) ≠ [] := by
                have := (Bool.and_eq_true _ _).mp hcond
                simpa using this.2
              have hlen : 1 ≤ (((c :: rest).drop pat.length).takeWhile (fun a => a != '&')).length :=
                List.length_pos.mpr hrun
              have hd : ((c :: rest).drop
                  (pat.length + (((c :: rest).drop pat.length).takeWhile (fun a => a != '&')).length)).length
                  ≤ rest.length := by
                rw [List.length_drop]
                simp only [List.length_cons]
                omega
              have hrec := ih f₂'
                ((c :: rest).drop
                  (pat.length + (((c :: rest).drop pat.length).takeWhile (fun a => a != '&')).length))
                (by omega) (by omega)
              rw [hrec]
          · have hrec := ih f₂' rest (by omega) (by omega)
            rw [hrec]

/-- The scanner walks over a region that contains no occurrence of the
pattern (and whose last character is not a pattern character when more
input follows, so no occurrence can straddle the boundary). -/
theorem replaceGo_skip (pat value y : Chars) :
    ∀ (x : Chars) (f : Nat), (x ++ y).length ≤ f → ¬ pat <:+: x →
      (y ≠ [] → ∀ q, x.getLast? = some q → q ∉ pat) →
      replaceGo pat value f (x ++ y) = x ++ replaceGo pat value y.length y := by
  intro x
  induction x with
  | nil =>
      intro f hf _ _
      simp only [List.nil_append] at hf ⊢
      exact replaceGo_fuel pat value f y.length y hf le_rfl
  | cons c x' ih =>
      intro f hf hni hlast
      obtain ⟨f', rfl⟩ : ∃ k, f = k + 1 := by
        refine ⟨f - 1, ?_⟩
        have := hf
        simp only [List.cons_append, List.length_cons] at this
        omega
      have hnp : pat.isPrefixOf (c :: (x' ++ y)) = false := by
        rw [Bool.eq_false_iff]
        intro hp
        have hp' : pat <+: (c :: x') ++ y := List.isPrefixOf_iff_prefix.mp hp
        rcases prefix_append_cases hp' with h1 | ⟨m, hm, hmy⟩
        · exact hni h1.isInfix
        · by_cases hm0 : m = []
          · subst hm0
            rw [List.append_nil] at hm
            exact hni (hm ▸ List.infix_refl _)
          · have hy0 : y ≠ [] := by
              intro h
              subst h
              exact hm0 (List.prefix_nil.mp hmy)
            have hq : (c :: x').getLast? = some ((c :: x').getLast (by simp)) :=
              List.getLast?_eq_getLast _ _
            refine hlast hy0 _ hq ?_
            rw [hm]
            exact List.mem_append_left _ (List.getLast_mem _)
      have step : replaceGo pat value (f' + 1) ((c :: x') ++ y)
          = c :: replaceGo pat value f' (x' ++ y) := by
        rw [List.cons_append, replaceGo_cons, hnp]
        simp
      rw [step, List.cons_append]
      have htail := ih f' (by simp only [List.cons_append, List.length_cons] at hf; omega)
        (fun hh => hni (List.infix_cons hh)) ?_
      · rw [htail]
      · intro hy0 q hq
        cases x' with
        | nil => simp at hq
        | cons d x'' =>
            have hq' : (c :: d :: x'').getLast? = some q := by
              rw [List.getLast?_cons_cons]
              exact hq
            exact hlast hy0 q hq'

/-- The scanner at an actual parameter occurrence: the pattern matches,
the whole nonempty `'&'`-free value run is consumed and replaced, and
scanning continues after it. -/
theorem replaceGo_match (param value v y : Chars) (f : Nat)
    (hf : ((param ++ '=' :: v) ++ y).length ≤ f)
    (hv : v ≠ []) (hv2 : '&' ∉ v)
    (hy : y = [] ∨ ∃ r, y = '&' :: r) :
    replaceGo (param ++ ['=']) value f ((param ++ '=' :: v) ++ y) =
      param ++ '=' :: (value ++ replaceGo (param ++ ['=']) value y.length y) := by
  have hsx : (param ++ '=' :: v) ++ y = (param ++ ['=']) ++ (v ++ y) := by simp
  obtain ⟨c, rest, hcr⟩ : ∃ c rest, (param ++ '=' :: v) ++ y = c :: rest := by
    cases param with
    | nil => exact ⟨'=', v ++ y, by simp⟩
    | cons a q => exact ⟨a, (q ++ '=' :: v) ++ y, rfl⟩
  obtain ⟨f', rfl⟩ : ∃ k, f = k + 1 := by
    refine ⟨f - 1, ?_⟩
    rw [hcr] at hf
    simp only [List.length_cons] at hf
    omega
  have hpre : (param ++ ['=']).isPrefixOf (c :: rest) = true := by
    rw [← hcr, hsx]
    exact List.isPrefixOf_iff_prefix.mpr (List.prefix_append _ _)
  have hdrop : (c :: rest).drop (param ++ ['=']).length = v ++ y := by
    rw [← hcr, hsx]
    exact List.drop_left _ _
  have hrunv : (v ++ y).takeWhile (fun a => a != '&') = v := by
    have hval : ∀ a ∈ v, (a != '&') = true :=
      fun a ha => bne_iff_ne.mpr (fun he => hv2 (he ▸ ha))
    have h1 : v.takeWhile (fun a => a != '&') = v := List.takeWhile_eq_self_iff.mpr hval
    rw [List.takeWhile_append, h1]
    simp only [if_pos]
    rcases hy with rfl | ⟨r, rfl⟩
    · simp
    · simp
  have hrun : ((c :: rest).drop (param ++ ['=']).length).takeWhile (fun a => a != '&') = v := by
    rw [hdrop, hrunv]
  have hvempty : v.isEmpty = false := by
    cases v with
    | nil => exact absurd rfl hv
    | cons a t => rfl
  have hcond : ((param ++ ['=']).isPrefixOf (c :: rest)
      && !(((c :: rest).drop (param ++ ['=']).length).takeWhile (fun a => a != '&')).isEmpty)
        = true := by
    rw [hpre, hrun, hvempty]
    rfl
  have hdrop2 : (c :: rest).drop ((param ++ ['=']).length + v.length) = y := by
    rw [← hcr, hsx, ← List.append_assoc, ← List.length_append]
    exact List.drop_left _ _
  have hylen : y.length ≤ f' := by
    rw [hcr] at hf
    have h2 := congrArg List.length hcr
    simp only [List.length_append, List.length_cons] at h2 hf ⊢
    omega
  rw [hcr, replaceGo_cons, hcond, if_pos rfl, hrun, hdrop2,
    replaceGo_fuel _ _ f' y.length y hylen le_rfl]
  simp

/-- Skip wrapper at the `replaceParam` level. -/
theorem replaceParam_skip (param value x y : Chars)
    (hni : ¬ (param ++ ['=']) <:+: x)
    (hlast : y ≠ [] → ∀ q, x.getLast? = some q → q ∉ param ++ ['=']) :
    replaceParam param value (x ++ y) = x ++ replaceParam param value y :=
  replaceGo_skip (param ++ ['=']) value y x (x ++ y).length le_rfl hni hlast

/-- Match wrapper at the `replaceParam` level. -/
theorem replaceParam_match (param value v y : Chars)
    (hv : v ≠ []) (hv2 : '&' ∉ v) (hy : y = [] ∨ ∃ r, y = '&' :: r) :
    replaceParam param value ((param ++ '=' :: v) ++ y) =
      param ++ '=' :: (value ++ replaceParam param value y) :=
  replaceGo_match param value v y _ le_rfl hv hv2 hy

/-- One `replaceParam` pass over a rendered parameter list substitutes
exactly the values of the parameters whose key is `key` and leaves
every other parameter verbatim, in its original position. -/
theorem replaceParam_renderParams (key value : Chars) (hk : '&' ∉ key) :
    ∀ (ps : List (Chars × Chars)),
      (∀ kv ∈ ps, kv.2 ≠ [] ∧ '&' ∉ kv.2 ∧
        (kv.1 = key ∨ ¬ (key ++ ['=']) <:+: (kv.1 ++ '=' :: kv.2))) →
      replaceParam key value (renderParams ps) = renderParams (substValue key value ps) := by
  have hkamp : '&' ∉ key ++ ['='] := by
    intro h
    rcases List.mem_append.mp h with h1 | h1
    · exact hk h1
    · simp at h1
  intro ps
  induction ps with
  | nil => intro _; rfl
  | cons kv rest ih =>
      intro hps
      obtain ⟨hv, hv2, hkey⟩ := hps kv (List.mem_cons_self _ _)
      have hresteq := ih (fun kv' h => hps kv' (List.mem_cons_of_mem _ h))
      have hkeyres : kv.1 = key ∨ (kv.1 ≠ key ∧ ¬ (key ++ ['=']) <:+: (kv.1 ++ '=' :: kv.2)) := by
        by_cases hkv : kv.1 = key
        · exact Or.inl hkv
        · rcases hkey with h | h
          · exact absurd h hkv
          · exact Or.inr ⟨hkv, h⟩
      cases rest with
      | nil =>
          rcases hkeyres with hkv | ⟨hkv, hni⟩
          · have hr : renderParams [kv] = (key ++ '=' :: kv.2) ++ ([] : Chars) := by
              simp [renderParams, hkv]
            rw [hr, replaceParam_match key value kv.2 [] hv hv2 (Or.inl rfl)]
            simp [renderParams, substValue, hkv]
            rfl
          · have hr : renderParams [kv] = (kv.1 ++ '=' :: kv.2) ++ ([] : Chars) := by
              simp [renderParams]
            rw [hr, replaceParam_skip key value _ [] hni (fun h => absurd rfl h)]
            simp [renderParams, substValue, hkv]
            rfl
      | cons kv₂ rest₂ =>
          rcases hkeyres with hkv | ⟨hkv, hni⟩
          · have hr : renderParams (kv :: kv₂ :: rest₂)
                = (key ++ '=' :: kv.2) ++ ('&' :: renderParams (kv₂ :: rest₂)) := by
              simp [renderParams, hkv]
            rw [hr, replaceParam_match key value kv.2 _ hv hv2 (Or.inr ⟨_, rfl⟩)]
            have hamp : replaceParam key value ('&' :: renderParams (kv₂ :: rest₂))
                = '&' :: replaceParam key value (renderParams (kv₂ :: rest₂)) := by
              have hskip := replaceParam_skip key value ['&'] (renderParams (kv₂ :: rest₂))
                (fun hinf => by
                  have : '=' ∈ (['&'] : Chars) :=
                    hinf.subset (List.mem_append_right _ (List.mem_singleton_self _))
                  simp at this)
                (fun _ q hqq => by
                  simp at hqq
                  subst hqq
                  exact hkamp)
              simpa using hskip
            rw [hamp, hresteq]
            simp [renderParams, substValue, hkv]
          · have hr : renderParams (kv :: kv₂ :: rest₂)
                = ((kv.1 ++ '=' :: kv.2) ++ ['&']) ++ renderParams (kv₂ :: rest₂) := by
              simp [renderParams]
            have hni2 : ¬ (key ++ ['=']) <:+: (kv.1 ++ '=' :: kv.2) ++ ['&'] :=
              not_infix_snoc hni hkamp
            rw [hr, replaceParam_skip key value _ _ hni2
              (fun _ q hqq => by
                rw [List.getLast?_concat] at hqq
                injection hqq with hqq
                subst hqq
                exact hkamp), hresteq]
            simp [renderParams, substValue, hkv]

/-- One `replaceParam` pass over a rendered URL: the base path (which
does not contain the pattern) is untouched and the parameter list gets
the value substitution. -/
theorem replaceParam_renderURL (key value base : Chars) (hk : '&' ∉ key)
    (hq : '?' ∉ key ++ ['='])
    (hbase : ¬ (key ++ ['=']) <:+: base ++ ['?'])
    (ps : List (Chars × Chars))
    (hps : ∀ kv ∈ ps, kv.2 ≠ [] ∧ '&' ∉ kv.2 ∧
      (kv.1 = key ∨ ¬ (key ++ ['=']) <:+: (kv.1 ++ '=' :: kv.2))) :
    replaceParam key value (renderURL base ps) = renderURL base (substValue key value ps) := by
  have hx : renderURL base ps = (base ++ ['?']) ++ renderParams ps := by
    simp [renderURL]
  rw [hx, replaceParam_skip key value _ _ hbase
    (fun _ q hqq => by
      rw [List.getLast?_concat] at hqq
      injection hqq with hqq
      subst hqq
      exact hq),
    replaceParam_renderParams key value hk ps hps]
  simp [renderURL]

/-- A pattern free of the separator occurs in `a ++ sep :: b` only if
it occurs in `a` or in `b`. -/
theorem not_infix_append_sep (n a : Chars) (sep : Char) (b : Chars)
    (_hn : n ≠ []) (hsep : sep ∉ n)
    (hna : ¬ n <:+: a) (hnb : ¬ n <:+: b) :
    ¬ n <:+: a ++ sep :: b := by
  intro h
  have h' : n <:+: (a ++ [sep]) ++ b := by
    simpa [List.append_assoc] using h
  rcases infix_append_split h' with h1 | h2 | ⟨n1, n2, hn12, hne1, _, hsuf, _⟩
  · rcases infix_append_chars h1 with hh | ⟨c, hc1, hc2⟩
    · exact hna hh
    · simp only [List.mem_singleton] at hc2
      subst hc2
      exact hsep hc1
  · exact hnb h2
  · obtain ⟨s, hs⟩ := hsuf
    have hlast : n1.getLast? = some sep := by
      have h2 := congrArg List.getLast? hs
      rw [List.getLast?_append_of_ne_nil _ hne1, List.getLast?_concat] at h2
      exact h2
    have hsepn1 : sep ∈ n1 := by
      have := List.getLast?_eq_getLast n1 hne1
      rw [this] at hlast
      injection hlast with hlast
      exact hlast ▸ List.getLast_mem hne1
    exact hsep (hn12 ▸ List.mem_append_left _ hsepn1)

/-- A nonempty pattern free of `'&'` that occurs in no rendered
segment does not occur in the rendered parameter list. -/
theorem not_infix_renderParams (n : Chars) (hn : n ≠ []) (hamp : '&' ∉ n) :
    ∀ (ps : List (Chars × Chars)),
      (∀ kv ∈ ps, ¬ n <:+: (kv.1 ++ '=' :: kv.2)) →
      ¬ n <:+: renderParams ps := by
  intro ps
  induction ps with
  | nil =>
      intro _ h
      exact hn (List.infix_nil.mp h)
  | cons kv rest ih =>
      intro hseg
      cases rest with
      | nil => simpa [renderParams] using hseg kv (List.mem_cons_self _ _)
      | cons kv₂ rest₂ =>
          have hr : renderParams (kv :: kv₂ :: rest₂)
              = (kv.1 ++ '=' :: kv.2) ++ '&' :: renderParams (kv₂ :: rest₂) := by
            simp [renderParams]
          rw [hr]
          exact not_infix_append_sep n _ '&' _ hn hamp
            (hseg kv (List.mem_cons_self _ _))
            (ih (fun kv' h => hseg kv' (List.mem_cons_of_mem _ h)))

/-- A nonempty pattern free of `'&'` and `'?'` that occurs neither in
the base nor in any rendered segment does not occur in the rendered
URL. -/
theorem not_infix_renderURL (n base : Chars) (ps : List (Chars × Chars))
    (hn : n ≠ []) (hamp : '&' ∉ n) (hqm : '?' ∉ n)
    (hbase : ¬ n <:+: base)
    (hseg : ∀ kv ∈ ps, ¬ n <:+: (kv.1 ++ '=' :: kv.2)) :
    ¬ n <:+: renderURL base ps :=
  not_infix_append_sep n base '?' (renderParams ps) hn hqm hbase
    (not_infix_renderParams n hn hamp ps hseg)

/-- Appending the limit parameter cannot create an occurrence of
`page[offset]`: the appended text is a separator, the literal
`page[limit]=`, and sign/digit characters. -/
theorem normalizeLimit_no_offset (url : Chars) (lim : Int)
    (h : strContains url "page[offset]".toList = false) :
    strContains (normalizeLimit url lim) "page[offset]".toList = false := by
  unfold normalizeLimit
  split
  · rw [Bool.eq_false_iff]
    intro hc
    have hni : ¬ offsetKey <:+: url := by
      rw [Bool.eq_false_iff] at h
      exact fun hi => h ((strContains_infix_iff _ _).mpr hi)
    have hb : ¬ offsetKey <:+: "page[limit]=".toList ++ intToChars lim := by
      intro hb
      rcases infix_append_chars hb with hh | ⟨c, hc1, hc2⟩
      · exact absurd hh (by decide)
      · have hchars : ∀ x ∈ offsetKey, isDigitChar x = false ∧ x ≠ '-' := by decide
        rcases intToChars_chars lim c hc2 with hd | hd
        · rw [(hchars c hc1).1] at hd
          exact Bool.false_ne_true hd
        · exact (hchars c hc1).2 hd
    have hsplit : ¬ offsetKey <:+: url ++ '?' :: ("page[limit]=".toList ++ intToChars lim) :=
      not_infix_append_sep _ _ _ _ (by decide) (by decide) hni hb
    have hsplit2 : ¬ offsetKey <:+: url ++ '&' :: ("page[limit]=".toList ++ intToChars lim) :=
      not_infix_append_sep _ _ _ _ (by decide) (by decide) hni hb
    have hi := (strContains_infix_iff _ _).mp hc
    unfold appendToURL at hi
    split at hi
    · exact hsplit2 hi
    · exact hsplit hi
  · exact h

/-- Appending the limit parameter preserves an existing occurrence of
`page[offset]`. -/
theorem normalizeLimit_keeps_offset (url : Chars) (lim : Int)
    (h : strContains url "page[offset]".toList = true) :
    strContains (normalizeLimit url lim) "page[offset]".toList = true := by
  unfold normalizeLimit
  split
  · unfold appendToURL
    split
    · exact strContains_append_of _ _ _ h
    · exact strContains_append_of _ _ _ h
  · exact h

/-- C8: working-URL normalisation is literal substring containment on
the input URL: `page[limit]=<limit>` is appended exactly when the input
lacks `page[limit]`, and — independently — `page[offset]=0` is appended
after it exactly when the input lacks `page[offset]` (the appended
limit text cannot fake an occurrence of `page[offset]`); a parameter is
introduced with `?` on a URL without a query string and with `&`
otherwise; and url `/`, limit 100, total 334 yields
`next = /?page[limit]=100&page[offset]=100` and last offset 300. -/
theorem C8_normalization (p : OffsetPagination) :
    ((strContains p.URL "page[limit]".toList = false →
        strContains p.URL "page[offset]".toList = false →
        workingURL p =
          appendToURL (appendToURL p.URL ("page[limit]=".toList ++ intToChars p.Limit))
            "page[offset]=0".toList) ∧
     (strContains p.URL "page[limit]".toList = false →
        strContains p.URL "page[offset]".toList = true →
        workingURL p = appendToURL p.URL ("page[limit]=".toList ++ intToChars p.Limit)) ∧
     (strContains p.URL "page[limit]".toList = true →
        strContains p.URL "page[offset]".toList = false →
        workingURL p = appendToURL p.URL "page[offset]=0".toList) ∧
     (strContains p.URL "page[limit]".toList = true →
        strContains p.URL "page[offset]".toList = true →
        workingURL p = p.URL) ∧
     (∀ u param, strContains u "?".toList = false →
        appendToURL u param = u ++ '?' :: param) ∧
     (∀ u param, strContains u "?".toList = true →
        appendToURL u param = u ++ '&' :: param)) ∧
    (GeneratePagination ⟨"/".toList, 100, 334⟩).2 =
      some ⟨none, none, some "/?page[limit]=100&page[offset]=100".toList,
            some "/?page[limit]=100&page[offset]=300".toList⟩ := by
  refine ⟨⟨?_, ?_, ?_, ?_, ?_, ?_⟩, by decide⟩
  · intro h1 h2
    have e1 : normalizeLimit p.URL p.Limit
        = appendToURL p.URL ("page[limit]=".toList ++ intToChars p.Limit) := by
      unfold normalizeLimit
      rw [h1]
      rfl
    have e2 := normalizeLimit_no_offset p.URL p.Limit h2
    rw [e1] at e2
    unfold workingURL normalizeOffset
    rw [e1, e2]
    rfl
  · intro h1 h2
    have e1 : normalizeLimit p.URL p.Limit
        = appendToURL p.URL ("page[limit]=".toList ++ intToChars p.Limit) := by
      unfold normalizeLimit
      rw [h1]
      rfl
    have e2 := normalizeLimit_keeps_offset p.URL p.Limit h2
    rw [e1] at e2
    unfold workingURL normalizeOffset
    rw [e1, e2]
    rfl
  · intro h1 h2
    have e1 : normalizeLimit p.URL p.Limit = p.URL := by
      unfold normalizeLimit
      rw [h1]
      rfl
    unfold workingURL normalizeOffset
    rw [e1, h2]
    rfl
  · intro h1 h2
    have e1 : normalizeLimit p.URL p.Limit = p.URL := by
      unfold normalizeLimit
      rw [h1]
      rfl
    unfold workingURL normalizeOffset
    rw [e1, h2]
    rfl
  · intro u param h
    unfold appendToURL
    rw [h]
    rfl
  · intro u param h
    unfold appendToURL
    rw [h]
    rfl

/-- C8 witness: the all-absent case on the concrete example URL `/`. -/
theorem C8_witness :
    workingURL ⟨"/".toList, 100, 334⟩ =
      appendToURL (appendToURL "/".toList ("page[limit]=".toList ++ intToChars 100))
        "page[offset]=0".toList :=
  (C8_normalization ⟨"/".toList, 100, 334⟩).1.1 (by decide) (by decide)

/-- A pattern whose characters are neither digits nor `'-'` and which
does not occur in `w` does not occur in `w` followed by a formatted
integer. -/
theorem pat_not_infix_digits (pat w : Chars) (n : Int)
    (h1 : ¬ pat <:+: w)
    (h2 : ∀ x ∈ pat, isDigitChar x = false ∧ x ≠ '-') :
    ¬ pat <:+: w ++ intToChars n := by
  intro h
  rcases infix_append_chars h with hh | ⟨c, hc1, hc2⟩
  · exact h1 hh
  · rcases intToChars_chars n c hc2 with hd | hd
    · rw [(h2 c hc1).1] at hd
      exact Bool.false_ne_true hd
    · exact (h2 c hc1).2 hd

/-- With both page parameters present as substrings, normalisation
leaves the URL unchanged. -/
theorem workingURL_of_contains (p : OffsetPagination)
    (hl : strContains p.URL "page[limit]".toList = true)
    (ho : strContains p.URL "page[offset]".toList = true) :
    workingURL p = p.URL := by
  have h1 : normalizeLimit p.URL p.Limit = p.URL := by
    unfold normalizeLimit
    rw [hl]
    rfl
  unfold workingURL
  rw [h1]
  unfold normalizeOffset
  rw [ho]
  rfl

/-- The two sequential value rewrites act on a rendered parameter list
as the combined page substitution. -/
theorem substValue_comp (l tgt : Int) (ps : List (Chars × Chars)) :
    substValue offsetKey (intToChars tgt) (substValue limitKey (intToChars l) ps)
      = substPage l tgt ps := by
  induction ps with
  | nil => rfl
  | cons kv rest ih =>
      simp only [substValue, List.map_cons, substPage] at ih ⊢
      rw [ih]
      have hne : ¬ (limitKey = offsetKey) := by decide
      have hne' : ¬ (offsetKey = limitKey) := by decide
      by_cases h1 : kv.1 = limitKey
      · simp [h1, hne]
      · by_cases h2 : kv.1 = offsetKey
        · simp [h1, h2, hne']
        · simp [h1, h2]

/-- The URL of one emitted link, on a well-formed rendered URL, is the
rendered URL with exactly the two page parameter values substituted. -/
theorem linkURL_render (base : Chars) (ps : List (Chars × Chars)) (l tgt : Int)
    (hps : ∀ kv ∈ ps, SegOK kv)
    (hbL : ¬ (limitKey ++ ['=']) <:+: base ++ ['?'])
    (hbO : ¬ (offsetKey ++ ['=']) <:+: base ++ ['?']) :
    linkURL (renderURL base ps) l tgt = renderURL base (substPage l tgt ps) := by
  have hps1 : ∀ kv ∈ ps, kv.2 ≠ [] ∧ '&' ∉ kv.2 ∧
      (kv.1 = limitKey ∨ ¬ (limitKey ++ ['=']) <:+: (kv.1 ++ '=' :: kv.2)) :=
    fun kv h => ⟨(hps kv h).1, (hps kv h).2.1, (hps kv h).2.2.1⟩
  have hps2 : ∀ kv ∈ substValue limitKey (intToChars l) ps, kv.2 ≠ [] ∧ '&' ∉ kv.2 ∧
      (kv.1 = offsetKey ∨ ¬ (offsetKey ++ ['=']) <:+: (kv.1 ++ '=' :: kv.2)) := by
    intro kv' hkv'
    obtain ⟨kv, hkv, hdef⟩ := List.mem_map.mp hkv'
    by_cases h1 : kv.1 = limitKey
    · rw [if_pos h1] at hdef
      subst hdef
      refine ⟨intToChars_ne_nil l, amp_not_mem_intToChars l, Or.inr ?_⟩
      have hform : kv.1 ++ '=' :: intToChars l = (limitKey ++ ['=']) ++ intToChars l := by
        rw [h1]
        simp
      rw [hform]
      exact pat_not_infix_digits _ _ l (by decide) (by decide)
    · rw [if_neg h1] at hdef
      subst hdef
      exact ⟨(hps kv hkv).1, (hps kv hkv).2.1, (hps kv hkv).2.2.2⟩
  calc linkURL (renderURL base ps) l tgt
      = replaceParam offsetKey (intToChars tgt)
          (replaceParam limitKey (intToChars l) (renderURL base ps)) := rfl
    _ = replaceParam offsetKey (intToChars tgt)
          (renderURL base (substValue limitKey (intToChars l) ps)) := by
        rw [replaceParam_renderURL limitKey (intToChars l) base (by decide) (by decide) hbL ps hps1]
    _ = renderURL base (substValue offsetKey (intToChars tgt)
          (substValue limitKey (intToChars l) ps)) := by
        rw [replaceParam_renderURL offsetKey (intToChars tgt) base (by decide) (by decide) hbO
          _ hps2]
    _ = renderURL base (substPage l tgt ps) := by rw [substValue_comp]

/-- C6 counterexample: the parameter `xpage[limit]=5` — a parameter
other than `page[limit]` and `page[offset]` — is NOT retained verbatim:
the value rewrite matches the text `page[limit]=5` inside it and the
emitted links carry `xpage[limit]=100`. -/
theorem C6_counterexample :
    (GeneratePagination ⟨"/?xpage[limit]=5&page[offset]=0".toList, 100, 334⟩).2 =
      some ⟨none, none, some "/?xpage[limit]=100&page[offset]=100".toList,
            some "/?xpage[limit]=100&page[offset]=300".toList⟩ ∧
    strContains "/?xpage[limit]=5&page[offset]=0".toList "xpage[limit]=5".toList = true ∧
    strContains "/?xpage[limit]=100&page[offset]=100".toList "xpage[limit]=5".toList
      = false := by decide

/-- C6 amended: on URLs rendered as `base?k1=v1&...&kn=vn` whose
values are nonempty and `'&'`-free and where no segment other than the
page parameters themselves (and not the base) contains the text
`page[limit]=` or `page[offset]=`, every emitted link is the rendered
URL with the other parameters verbatim, unchanged, in their original
order and position; only the values of `page[limit]` and `page[offset]`
are replaced (by the effective limit and the link's target offset). -/
theorem C6_other_params_preserved
    (base : Chars) (ps : List (Chars × Chars)) (p : OffsetPagination)
    (hURL : p.URL = renderURL base ps)
    (hps : ∀ kv ∈ ps, SegOK kv)
    (hbL : ¬ (limitKey ++ ['=']) <:+: base ++ ['?'])
    (hbO : ¬ (offsetKey ++ ['=']) <:+: base ++ ['?'])
    (hcl : strContains p.URL "page[limit]".toList = true)
    (hco : strContains p.URL "page[offset]".toList = true)
    (L : LinksSet) (hL : (GeneratePagination p).2 = some L)
    (u : Chars)
    (hu : L.first = some u ∨ L.previous = some u ∨ L.next = some u ∨ L.last = some u) :
    ∃ tgt : Int, u = renderURL base (substPage (effectiveLimit p) tgt ps) := by
  have hw : workingURL p = renderURL base ps := by
    rw [workingURL_of_contains p hcl hco, hURL]
  obtain ⟨-, rfl⟩ := generate_eq_linksFor p L hL
  rcases hu with h | h | h | h
  · simp only [linksFor] at h
    split at h
    · exact ⟨0, by
        rw [← Option.some.inj h, hw]
        exact linkURL_render base ps _ _ hps hbL hbO⟩
    · exact absurd h (by simp)
  · simp only [linksFor] at h
    split at h
    · exact ⟨effectiveOffset p - effectiveLimit p, by
        rw [← Option.some.inj h, hw]
        exact linkURL_render base ps _ _ hps hbL hbO⟩
    · exact absurd h (by simp)
  · simp only [linksFor] at h
    split at h
    · exact ⟨effectiveOffset p + effectiveLimit p, by
        rw [← Option.some.inj h, hw]
        exact linkURL_render base ps _ _ hps hbL hbO⟩
    · exact absurd h (by simp)
  · simp only [linksFor] at h
    split at h
    · exact ⟨lastOffsetCalc p.Total (effectiveLimit p) (effectiveOffset p), by
        rw [← Option.some.inj h, hw]
        exact linkURL_render base ps _ _ hps hbL hbO⟩
    · exact absurd h (by simp)

/-- C6 witness: the multi-parameter test row (url
`/?page[sort]=-1&page[limit]=111&aparam=2&page[offset]=111&lastparam=owt`,
limit 100, total 334) on its `next` link: `page[sort]=-1`, `aparam=2`
and `lastparam=owt` are preserved verbatim in place. -/
theorem C6_witness :
    ∃ tgt : Int,
      "/?page[sort]=-1&page[limit]=100&aparam=2&page[offset]=211&lastparam=owt".toList =
        renderURL "/".toList (substPage
          (effectiveLimit
            ⟨"/?page[sort]=-1&page[limit]=111&aparam=2&page[offset]=111&lastparam=owt".toList,
              100, 334⟩)
          tgt
          [("page[sort]".toList, "-1".toList), ("page[limit]".toList, "111".toList),
           ("aparam".toList, "2".toList), ("page[offset]".toList, "111".toList),
           ("lastparam".toList, "owt".toList)]) :=
  C6_other_params_preserved "/".toList
    [("page[sort]".toList, "-1".toList), ("page[limit]".toList, "111".toList),
     ("aparam".toList, "2".toList), ("page[offset]".toList, "111".toList),
     ("lastparam".toList, "owt".toList)]
    ⟨"/?page[sort]=-1&page[limit]=111&aparam=2&page[offset]=111&lastparam=owt".toList, 100, 334⟩
    (by decide) (by decide) (by decide) (by decide) (by decide) (by decide)
    ⟨some "/?page[sort]=-1&page[limit]=100&aparam=2&page[offset]=0&lastparam=owt".toList,
     some "/?page[sort]=-1&page[limit]=100&aparam=2&page[offset]=11&lastparam=owt".toList,
     some "/?page[sort]=-1&page[limit]=100&aparam=2&page[offset]=211&lastparam=owt".toList,
     some "/?page[sort]=-1&page[limit]=100&aparam=2&page[offset]=311&lastparam=owt".toList⟩
    (by decide) _ (Or.inr (Or.inr (Or.inl rfl)))

-- ==================== extraction lemmas ====================

/-- At the head of a region that contains no occurrence of the pattern
(and whose last character is not a pattern character when more input
follows), the pattern does not match. -/
theorem isPrefixOf_false_of_absent (key : Chars) (c : Char) (x' y : Chars)
    (hni : ¬ key <:+: c :: x')
    (hlast : y ≠ [] → ∀ q, (c :: x').getLast? = some q → q ∉ key) :
    key.isPrefixOf (c :: (x' ++ y)) = false := by
  rw [Bool.eq_false_iff]
  intro hp
  have hp' : key <+: (c :: x') ++ y := List.isPrefixOf_iff_prefix.mp hp
  rcases prefix_append_cases hp' with h1 | ⟨m, hm, hmy⟩
  · exact hni h1.isInfix
  · by_cases hm0 : m = []
    · subst hm0
      rw [List.append_nil] at hm
      exact hni (hm ▸ List.infix_refl _)
    · have hy0 : y ≠ [] := by
        intro h
        subst h
        exact hm0 (List.prefix_nil.mp hmy)
      have hq : (c :: x').getLast? = some ((c :: x').getLast (by simp)) :=
        List.getLast?_eq_getLast _ _
      refine hlast hy0 _ hq ?_
      rw [hm]
      exact List.mem_append_left _ (List.getLast_mem _)

/-- One definitional step of the digit-run finder. -/
theorem findParamDigits_cons (key : Chars) (c : Char) (t : Chars) :
    findParamDigits key (c :: t) =
      if key.isPrefixOf (c :: t) && !(((c :: t).drop key.length).takeWhile isDigitChar).isEmpty
      then some (((c :: t).drop key.length).takeWhile isDigitChar)
      else findParamDigits key t := rfl

/-- The finder walks over a pattern-free region. -/
theorem findParamDigits_skip (key y : Chars) :
    ∀ (x : Chars), ¬ key <:+: x →
      (y ≠ [] → ∀ q, x.getLast? = some q → q ∉ key) →
      findParamDigits key (x ++ y) = findParamDigits key y := by
  intro x
  induction x with
  | nil => intro _ _; rfl
  | cons c x' ih =>
      intro hni hlast
      rw [List.cons_append, findParamDigits_cons,
        isPrefixOf_false_of_absent key c x' y hni hlast]
      rw [show ((false && !(((c :: (x' ++ y)).drop key.length).takeWhile isDigitChar).isEmpty)
        = false) from rfl, if_neg (by simp)]
      refine ih (fun hh => hni (List.infix_cons hh)) ?_
      intro hy0 q hq
      cases x' with
      | nil => simp at hq
      | cons d x'' =>
          have hq' : (c :: d :: x'').getLast? = some q := by
            rw [List.getLast?_cons_cons]
            exact hq
          exact hlast hy0 q hq'

/-- A pattern-free string yields no extracted value. -/
theorem findParamDigits_none (key s : Chars) (h : ¬ key <:+: s) :
    findParamDigits key s = none := by
  have := findParamDigits_skip key [] s h (fun hy => absurd rfl hy)
  simpa using this

/-- At an occurrence of the pattern followed by a nonempty digit run
(terminated by `'&'` or the end of the string), the finder returns that
run. -/
theorem findParamDigits_found (key ds y : Chars) (hkey : key ≠ [])
    (hne : ds ≠ []) (hdig : ∀ c ∈ ds, isDigitChar c = true)
    (hy : y = [] ∨ ∃ r, y = '&' :: r) :
    findParamDigits key (key ++ (ds ++ y)) = some ds := by
  obtain ⟨c, rest, hcr⟩ : ∃ c rest, key ++ (ds ++ y) = c :: rest := by
    cases key with
    | nil => exact absurd rfl hkey
    | cons a q => exact ⟨a, q ++ (ds ++ y), rfl⟩
  rw [hcr, findParamDigits_cons]
  have hpre : key.isPrefixOf (c :: rest) = true := by
    rw [← hcr]
    exact List.isPrefixOf_iff_prefix.mpr (List.prefix_append _ _)
  have hdrop : (c :: rest).drop key.length = ds ++ y := by
    rw [← hcr]
    exact List.drop_left _ _
  have hamp : isDigitChar '&' = false := by decide
  have htw : (ds ++ y).takeWhile isDigitChar = ds := by
    rw [List.takeWhile_append, List.takeWhile_eq_self_iff.mpr hdig, if_pos rfl]
    rcases hy with rfl | ⟨r, rfl⟩
    · simp
    · simp [List.takeWhile_cons, hamp]
  have hemp : ds.isEmpty = false := by
    cases ds with
    | nil => exact absurd rfl hne
    | cons a t => rfl
  rw [hdrop, htw, hpre, hemp]
  rfl

/-- Value of a digit list built by appending one digit. -/
theorem digitsToNat_append_singleton (xs : Chars) (d : Char) :
    digitsToNat (xs ++ [d]) = 10 * digitsToNat xs + digitVal d := by
  unfold digitsToNat
  rw [List.foldl_append]
  simp [Nat.mul_comm]

/-- Digit characters round-trip through their numeric value. -/
theorem digitVal_digitChar {k : Nat} (h : k < 10) : digitVal (Nat.digitChar k) = k := by
  interval_cases k <;> decide

/-- The formatted digits of a natural number evaluate back to it. -/
theorem digitsToNat_natDigitsGo (f n : Nat) (h : n < f) :
    digitsToNat (natDigitsGo f n) = n := by
  induction f generalizing n with
  | zero => omega
  | succ f ih =>
      unfold natDigitsGo
      split
      · next h10 =>
          simp [digitsToNat, digitVal_digitChar h10]
      · next h10 =>
          push_neg at h10
          rw [digitsToNat_append_singleton, ih (n / 10) (by omega),
            digitVal_digitChar (Nat.mod_lt _ (by norm_num))]
          omega

/-- Round-trip of the decimal formatter. -/
theorem digitsToNat_natDigits (n : Nat) : digitsToNat (natDigits n) = n :=
  digitsToNat_natDigitsGo _ _ (Nat.lt_succ_self n)

/-- A nonnegative integer formats as its natural digit string. -/
theorem intToChars_of_nonneg (n : Int) (h : 0 ≤ n) : intToChars n = natDigits n.toNat := by
  unfold intToChars
  rw [if_neg (not_lt.mpr h)]

/-- Any rendered parameter occurs contiguously in the rendered list. -/
theorem renderParams_decomp :
    ∀ (ps : List (Chars × Chars)) (kv : Chars × Chars), kv ∈ ps →
      ∃ A B, renderParams ps = A ++ (kv.1 ++ '=' :: kv.2) ++ B := by
  intro ps
  induction ps with
  | nil => intro kv h; cases h
  | cons kv₀ rest ih =>
      intro kv h
      rcases List.mem_cons.mp h with rfl | hmem
      · cases rest with
        | nil => exact ⟨[], [], by simp [renderParams]⟩
        | cons kv₂ r₂ =>
            exact ⟨[], '&' :: renderParams (kv₂ :: r₂), by simp [renderParams]⟩
      · obtain ⟨A, B, hAB⟩ := ih kv hmem
        cases rest with
        | nil => cases hmem
        | cons kv₂ r₂ =>
            refine ⟨(kv₀.1 ++ '=' :: kv₀.2) ++ '&' :: A, B, ?_⟩
            simp [renderParams, hAB, List.append_assoc]

/-- A key that appears among the rendered parameters is contained in
the rendered URL. -/
theorem strContains_renderURL_of_key (base : Chars) (ps : List (Chars × Chars))
    (k : Chars) (h : ∃ kv ∈ ps, kv.1 = k) :
    strContains (renderURL base ps) k = true := by
  obtain ⟨kv, hmem, hk⟩ := h
  subst hk
  rw [strContains_infix_iff]
  obtain ⟨A, B, hAB⟩ := renderParams_decomp ps kv hmem
  refine ⟨base ++ '?' :: A, '=' :: kv.2 ++ B, ?_⟩
  simp [renderURL, hAB, List.append_assoc]

/-- The finder over a rendered parameter list in which every parameter
whose key matches carries the digit run `ds`, and no other segment
contains the pattern, returns `ds`. -/
theorem findParamDigits_renderParams (key ds : Chars) (hkey : key ≠ []) (hamp : '&' ∉ key)
    (hne : ds ≠ []) (hdig : ∀ c ∈ ds, isDigitChar c = true) :
    ∀ ps : List (Chars × Chars),
      (∀ kv ∈ ps, (key = kv.1 ++ ['='] ∧ kv.2 = ds) ∨ ¬ key <:+: (kv.1 ++ '=' :: kv.2)) →
      (∃ kv ∈ ps, key = kv.1 ++ ['=']) →
      findParamDigits key (renderParams ps) = some ds := by
  intro ps
  induction ps with
  | nil =>
      intro _ hex
      rcases hex with ⟨kv, h, _⟩
      cases h
  | cons kv rest ih =>
      intro hps hex
      by_cases hk : key = kv.1 ++ ['=']
      · have hds : kv.2 = ds := by
          rcases hps kv (List.mem_cons_self _ _) with ⟨_, h⟩ | hno
          · exact h
          · refine absurd ?_ hno
            rw [hk]
            exact ⟨[], kv.2, by simp⟩
        cases rest with
        | nil =>
            have hr : renderParams [kv] = key ++ (ds ++ []) := by
              rw [hk, ← hds]
              simp [renderParams]
            rw [hr]
            exact findParamDigits_found key ds [] hkey hne hdig (Or.inl rfl)
        | cons kv₂ r₂ =>
            have hr : renderParams (kv :: kv₂ :: r₂)
                = key ++ (ds ++ ('&' :: renderParams (kv₂ :: r₂))) := by
              rw [hk, ← hds]
              simp [renderParams]
            rw [hr]
            exact findParamDigits_found key ds _ hkey hne hdig (Or.inr ⟨_, rfl⟩)
      · have hno : ¬ key <:+: (kv.1 ++ '=' :: kv.2) := by
          rcases hps kv (List.mem_cons_self _ _) with ⟨h1, _⟩ | h
          · exact absurd h1 hk
          · exact h
        have hex' : ∃ kv' ∈ rest, key = kv'.1 ++ ['='] := by
          rcases hex with ⟨kv', hmem, hkeq⟩
          rcases List.mem_cons.mp hmem with rfl | hmem'
          · exact absurd hkeq hk
          · exact ⟨kv', hmem', hkeq⟩
        cases rest with
        | nil =>
            rcases hex' with ⟨kv', h, _⟩
            cases h
        | cons kv₂ r₂ =>
            have hr : renderParams (kv :: kv₂ :: r₂)
                = ((kv.1 ++ '=' :: kv.2) ++ ['&']) ++ renderParams (kv₂ :: r₂) := by
              simp [renderParams]
            rw [hr, findParamDigits_skip key _ _ (not_infix_snoc hno hamp)
              (fun _ q hqq => by
                rw [List.getLast?_concat] at hqq
                injection hqq with hqq
                subst hqq
                exact hamp)]
            exact ih (fun kv' h => hps kv' (List.mem_cons_of_mem _ h)) hex'

/-- A URL free of the extraction pattern extracts the default 0. -/
theorem getPageParam_zero_of_absent (name url : Chars)
    (h : ¬ pageKey name <:+: url) : getPageParam name url = 0 := by
  unfold getPageParam
  rw [findParamDigits_none _ _ h]

/-- Extraction over a rendered URL whose matching parameters all carry
the digit run `ds`. -/
theorem getPageParam_renderURL (name base : Chars) (ps : List (Chars × Chars)) (ds : Chars)
    (hamp : '&' ∉ pageKey name) (hqm : '?' ∉ pageKey name)
    (hne : ds ≠ []) (hdig : ∀ c ∈ ds, isDigitChar c = true)
    (hbase : ¬ pageKey name <:+: base ++ ['?'])
    (hps : ∀ kv ∈ ps, (pageKey name = kv.1 ++ ['='] ∧ kv.2 = ds)
      ∨ ¬ pageKey name <:+: (kv.1 ++ '=' :: kv.2))
    (hex : ∃ kv ∈ ps, pageKey name = kv.1 ++ ['=']) :
    getPageParam name (renderURL base ps) = (digitsToNat ds : Int) := by
  have hkey : pageKey name ≠ [] := by
    unfold pageKey
    simp
  have hx : renderURL base ps = (base ++ ['?']) ++ renderParams ps := by
    simp [renderURL]
  unfold getPageParam
  rw [hx, findParamDigits_skip _ _ _ hbase
    (fun _ q hqq => by
      rw [List.getLast?_concat] at hqq
      injection hqq with hqq
      subst hqq
      exact hqm),
    findParamDigits_renderParams (pageKey name) ds hkey hamp hne hdig ps hps hex]

/-- When limit extraction yields 0 (as it always does for lowercase
URLs, the pattern being capitalised), the effective limit is the
configured limit — through the fallback when the configured limit is
nonnegative, and through the `min` itself when it is negative. -/
theorem effectiveLimit_of_extract_zero (p : OffsetPagination)
    (h : getPageParam "Limit".toList (workingURL p) = 0) :
    effectiveLimit p = p.Limit := by
  unfold effectiveLimit
  rw [h]
  split <;> omega

/-- C10 counterexample: with url `/?page[offset]=&page[limit]=111`
(empty offset value), limit 100, total 334, the emitted `next` link has
target offset 100 but the value rewrite cannot write it (the pattern
needs a nonempty value), so re-running on that link still extracts
offset 0: its link set has no `first` entry although the target offset
100 is positive — not consistent with offset 100 being current. -/
theorem C10_counterexample :
    (GeneratePagination ⟨"/?page[offset]=&page[limit]=111".toList, 100, 334⟩).2 =
      some ⟨none, none, some "/?page[offset]=&page[limit]=100".toList,
            some "/?page[offset]=&page[limit]=100".toList⟩ ∧
    effectiveOffset ⟨"/?page[offset]=&page[limit]=100".toList, 100, 334⟩ = 0 ∧
    (GeneratePagination ⟨"/?page[offset]=&page[limit]=100".toList, 100, 334⟩).2 =
      some ⟨none, none, some "/?page[offset]=&page[limit]=100".toList,
            some "/?page[offset]=&page[limit]=100".toList⟩ := by decide

/-- Key projection of the combined page substitution. -/
theorem substPage_fst (l tgt : Int) (kv : Chars × Chars) :
    ((if kv.1 = limitKey then (kv.1, intToChars l)
      else if kv.1 = offsetKey then (kv.1, intToChars tgt) else kv) : Chars × Chars).1
      = kv.1 := by
  split
  · rfl
  · split
    · rfl
    · rfl

/-- C10 amended: on well-formed rendered URLs that carry both page
parameters, rewriting any link URL with a nonnegative target offset
`tgt` and re-running the calculator with the same limit and total uses
the same effective limit and treats `tgt` as the new current effective
offset, so each direction is present under the same threshold
conditions applied to `tgt`, with the corresponding target offsets. -/
theorem C10_idempotent_rewrite
    (base : Chars) (ps : List (Chars × Chars)) (p : OffsetPagination)
    (hURL : p.URL = renderURL base ps)
    (hps : ∀ kv ∈ ps, SegOK kv)
    (hcap : ∀ kv ∈ ps, SegNoCap kv)
    (hbL : ¬ (limitKey ++ ['=']) <:+: base ++ ['?'])
    (hbO : ¬ (offsetKey ++ ['=']) <:+: base ++ ['?'])
    (hbC : ¬ pageKey "Limit".toList <:+: base)
    (hkl : ∃ kv ∈ ps, kv.1 = limitKey)
    (hko : ∃ kv ∈ ps, kv.1 = offsetKey)
    (tgt : Int) (htgt : 0 ≤ tgt) :
    effectiveLimit ⟨linkURL (workingURL p) (effectiveLimit p) tgt, p.Limit, p.Total⟩
        = effectiveLimit p ∧
    effectiveOffset ⟨linkURL (workingURL p) (effectiveLimit p) tgt, p.Limit, p.Total⟩
        = tgt ∧
    (GeneratePagination ⟨linkURL (workingURL p) (effectiveLimit p) tgt, p.Limit, p.Total⟩).2 =
      if p.Total < p.Limit then none
      else some (linksFor (linkURL (workingURL p) (effectiveLimit p) tgt)
        (effectiveLimit p) tgt p.Total) := by
  have hclp : strContains p.URL "page[limit]".toList = true := by
    rw [hURL]
    exact strContains_renderURL_of_key base ps limitKey hkl
  have hcop : strContains p.URL "page[offset]".toList = true := by
    rw [hURL]
    exact strContains_renderURL_of_key base ps offsetKey hko
  have hwp : workingURL p = renderURL base ps := by
    rw [workingURL_of_contains p hclp hcop, hURL]
  have hcapP : ¬ pageKey "Limit".toList <:+: renderURL base ps :=
    not_infix_renderURL _ base ps (by decide) (by decide) (by decide) hbC
      (fun kv h => hcap kv h)
  have hLp : effectiveLimit p = p.Limit := by
    refine effectiveLimit_of_extract_zero p ?_
    rw [hwp]
    exact getPageParam_zero_of_absent _ _ hcapP
  have hu : linkURL (workingURL p) (effectiveLimit p) tgt
      = renderURL base (substPage (effectiveLimit p) tgt ps) := by
    rw [hwp]
    exact linkURL_render base ps _ _ hps hbL hbO
  have hklq : ∃ kv ∈ substPage (effectiveLimit p) tgt ps, kv.1 = limitKey := by
    obtain ⟨kv, hmem, hk⟩ := hkl
    exact ⟨_, List.mem_map_of_mem _ hmem, (substPage_fst _ _ kv).trans hk⟩
  have hkoq : ∃ kv ∈ substPage (effectiveLimit p) tgt ps, kv.1 = offsetKey := by
    obtain ⟨kv, hmem, hk⟩ := hko
    exact ⟨_, List.mem_map_of_mem _ hmem, (substPage_fst _ _ kv).trans hk⟩
  have hwq : workingURL ⟨linkURL (workingURL p) (effectiveLimit p) tgt, p.Limit, p.Total⟩
      = linkURL (workingURL p) (effectiveLimit p) tgt := by
    refine workingURL_of_contains _ ?_ ?_
    · show strContains (linkURL (workingURL p) (effectiveLimit p) tgt) _ = true
      rw [hu]
      exact strContains_renderURL_of_key base _ limitKey hklq
    · show strContains (linkURL (workingURL p) (effectiveLimit p) tgt) _ = true
      rw [hu]
      exact strContains_renderURL_of_key base _ offsetKey hkoq
  have hsegsq : ∀ kv' ∈ substPage (effectiveLimit p) tgt ps,
      ¬ pageKey "Limit".toList <:+: (kv'.1 ++ '=' :: kv'.2) := by
    intro kv' hkv'
    obtain ⟨kv, hmem, hdef⟩ := List.mem_map.mp hkv'
    by_cases h1 : kv.1 = limitKey
    · rw [if_pos h1] at hdef
      subst hdef
      have hform : kv.1 ++ '=' :: intToChars (effectiveLimit p)
          = (limitKey ++ ['=']) ++ intToChars (effectiveLimit p) := by
        rw [h1]
        simp
      rw [hform]
      exact pat_not_infix_digits _ _ _ (by decide) (by decide)
    · rw [if_neg h1] at hdef
      by_cases h2 : kv.1 = offsetKey
      · rw [if_pos h2] at hdef
        subst hdef
        have hform : kv.1 ++ '=' :: intToChars tgt
            = (offsetKey ++ ['=']) ++ intToChars tgt := by
          rw [h2]
          simp
        rw [hform]
        exact pat_not_infix_digits _ _ _ (by decide) (by decide)
      · rw [if_neg h2] at hdef
        subst hdef
        exact hcap kv hmem
  have hLq : effectiveLimit
      ⟨linkURL (workingURL p) (effectiveLimit p) tgt, p.Limit, p.Total⟩ = p.Limit := by
    refine effectiveLimit_of_extract_zero _ ?_
    rw [hwq, hu]
    exact getPageParam_zero_of_absent _ _
      (not_infix_renderURL _ base _ (by decide) (by decide) (by decide) hbC hsegsq)
  have hdig : ∀ c ∈ intToChars tgt, isDigitChar c = true := by
    rw [intToChars_of_nonneg tgt htgt]
    exact natDigitsGo_digits _ _
  have hdisj : ∀ kv' ∈ substPage (effectiveLimit p) tgt ps,
      (pageKey "offset".toList = kv'.1 ++ ['='] ∧ kv'.2 = intToChars tgt)
        ∨ ¬ pageKey "offset".toList <:+: (kv'.1 ++ '=' :: kv'.2) := by
    intro kv' hkv'
    obtain ⟨kv, hmem, hdef⟩ := List.mem_map.mp hkv'
    by_cases h1 : kv.1 = limitKey
    · rw [if_pos h1] at hdef
      subst hdef
      refine Or.inr ?_
      have hform : kv.1 ++ '=' :: intToChars (effectiveLimit p)
          = (limitKey ++ ['=']) ++ intToChars (effectiveLimit p) := by
        rw [h1]
        simp
      rw [hform]
      exact pat_not_infix_digits _ _ _ (by decide) (by decide)
    · rw [if_neg h1] at hdef
      by_cases h2 : kv.1 = offsetKey
      · rw [if_pos h2] at hdef
        subst hdef
        refine Or.inl ⟨?_, rfl⟩
        rw [h2]
        decide
      · rw [if_neg h2] at hdef
        subst hdef
        rcases (hps kv hmem).2.2.2 with h | h
        · exact absurd h h2
        · exact Or.inr h
  have hexq : ∃ kv ∈ substPage (effectiveLimit p) tgt ps,
      pageKey "offset".toList = kv.1 ++ ['='] := by
    obtain ⟨kv, hmem, hk⟩ := hko
    refine ⟨_, List.mem_map_of_mem _ hmem, ?_⟩
    rw [substPage_fst _ _ kv, hk]
    decide
  have hext : getPageParam "offset".toList
      (renderURL base (substPage (effectiveLimit p) tgt ps))
      = (digitsToNat (intToChars tgt) : Int) :=
    getPageParam_renderURL "offset".toList base _ (intToChars tgt)
      (by decide) (by decide) (intToChars_ne_nil tgt) hdig hbO hdisj hexq
  have hOq : effectiveOffset
      ⟨linkURL (workingURL p) (effectiveLimit p) tgt, p.Limit, p.Total⟩ = tgt := by
    unfold effectiveOffset
    rw [hwq]
    show max (getPageParam "offset".toList (linkURL (workingURL p) (effectiveLimit p) tgt)) 0
      = tgt
    rw [hu, hext, intToChars_of_nonneg tgt htgt, digitsToNat_natDigits]
    rw [Int.toNat_of_nonneg htgt]
    exact max_eq_left htgt
  refine ⟨hLq.trans hLp.symm, hOq, ?_⟩
  unfold GeneratePagination
  dsimp only
  split
  · rfl
  · rw [hwq, hOq, hLq, hLp]

/-- C10 witness: the mid-range test request, rewritten to the `next`
target offset 211, re-runs with the same effective limit and with 211
as the new current effective offset. -/
theorem C10_witness :
    effectiveLimit
        ⟨linkURL (workingURL ⟨"/?page[limit]=111&page[offset]=111".toList, 100, 334⟩)
          (effectiveLimit ⟨"/?page[limit]=111&page[offset]=111".toList, 100, 334⟩) 211,
          100, 334⟩
      = effectiveLimit ⟨"/?page[limit]=111&page[offset]=111".toList, 100, 334⟩ ∧
    effectiveOffset
        ⟨linkURL (workingURL ⟨"/?page[limit]=111&page[offset]=111".toList, 100, 334⟩)
          (effectiveLimit ⟨"/?page[limit]=111&page[offset]=111".toList, 100, 334⟩) 211,
          100, 334⟩ = 211 ∧
    (GeneratePagination
        ⟨linkURL (workingURL ⟨"/?page[limit]=111&page[offset]=111".toList, 100, 334⟩)
          (effectiveLimit ⟨"/?page[limit]=111&page[offset]=111".toList, 100, 334⟩) 211,
          100, 334⟩).2 =
      if (334 : Int) < 100 then none
      else some (linksFor
        (linkURL (workingURL ⟨"/?page[limit]=111&page[offset]=111".toList, 100, 334⟩)
          (effectiveLimit ⟨"/?page[limit]=111&page[offset]=111".toList, 100, 334⟩) 211)
        (effectiveLimit ⟨"/?page[limit]=111&page[offset]=111".toList, 100, 334⟩) 211 334) :=
  C10_idempotent_rewrite "/".toList
    [("page[limit]".toList, "111".toList), ("page[offset]".toList, "111".toList)]
    ⟨"/?page[limit]=111&page[offset]=111".toList, 100, 334⟩
    (by decide) (by decide) (by decide) (by decide) (by decide) (by decide)
    (by decide) (by decide) 211 (by decide)

end Jsonapi
